import Mathlib

/-!
Verification of the custom-react-quill-editor core against its specification.

The development shallowly embeds the repository's TypeScript core:
* the offset-mapped text search over Quill deltas (`findTextRangesInDelta`,
  src/unnamed/part_009),
* the placeholder token codec (`htmlWithPlaceholderTokensToHtml`,
  `semanticHtmlToPlaceholderTokens`, src/src/lib/editor/QuillHighlightBlot.ts),
* the highlight stripping codec (`semanticHtmlToHighlightTokens`,
  src/src/utils/editor/highlightTokens.ts),
* the range application protocol (`applyHighlights` / `removeAllHighlights`,
  src/src/utils/editor/ReactQuillWrapper.ts),
* the placeholder insertion facade (`insertPlaceholder`), and
* the tooltip placement engine (`showTooltip`, `isTooltipInViewport`,
  src/src/lib/editor/QuillHighlightBlot.ts).

Strings are modelled as `List Char`; the JavaScript regular-expression
replacements are modelled by explicit scanners that follow the engine's
leftmost-match / continue-after-match semantics for the concrete patterns
appearing in the source.
-/

namespace RQE

/-- Delta operation payload: a text run or an embedded object.  Mirrors the
`op.insert` field of a Quill delta: a string, or an object (embed). -/
inductive DeltaInsert where
  | text (s : String)
  | embed
deriving DecidableEq, Repr

/-- One delta operation.  Only the `insert` payload is relevant to the search. -/
structure DeltaOp where
  insert : DeltaInsert
deriving DecidableEq, Repr

/-- Located range in delta offset space, as returned by the search. -/
structure FoundRange where
  index : Nat
  length : Nat
deriving DecidableEq, Repr

/-- Builds the flattened plain-text projection of the delta together with the
per-character delta offsets.  Mirrors the first loop of `findTextRangesInDelta`
(src/unnamed/part_009 lines 23-38): each run character contributes itself and
records the running `deltaIndex`; an embed only advances `deltaIndex` by one. -/
def buildProjection : List DeltaOp → Nat → List Char × List Nat
  | [], _ => ([], [])
  | op :: rest, deltaIndex =>
    match op.insert with
    | .text s =>
      let pm := buildProjection rest (deltaIndex + s.data.length)
      (s.data ++ pm.1, (List.range s.data.length).map (fun i => deltaIndex + i) ++ pm.2)
    | .embed => buildProjection rest (deltaIndex + 1)

/-- True when `pat` occurs in `plain` starting at position `p`. -/
def occursAt (plain pat : List Char) (p : Nat) : Bool :=
  pat.isPrefixOf (plain.drop p)

/-- Least occurrence position of `pat` in `plain` that is `≥ start`; models
`String.prototype.indexOf(pat, start)` (`none` for the `-1` result). -/
def findOccFrom (plain pat : List Char) (start : Nat) : Option Nat :=
  ((List.range (plain.length + 1)).filter
    (fun p => start ≤ p && occursAt plain pat p)).head?

/-- The `while (true)` scan of `findTextRangesInDelta` (src/unnamed/part_009
lines 55-63): find the next occurrence at or after `start`, report the mapped
range, and continue from `pos + 1`.  `fuel` bounds the recursion; since every
iteration moves `start` past the previous hit, `plain.length + 1` steps always
suffice, so the fuelled function agrees with the source loop. -/
def collectRanges (plain pat : List Char) (idxMap : List Nat) :
    Nat → Nat → List FoundRange
  | 0, _ => []
  | fuel + 1, start =>
    match findOccFrom plain pat start with
    | none => []
    | some pos =>
      let index := idxMap.getD pos 0
      let endPos := pos + pat.length - 1
      let len := idxMap.getD endPos 0 - index + 1
      ⟨index, len⟩ :: collectRanges plain pat idxMap fuel (pos + 1)

/-- Offset-mapped text search over a delta, from src/unnamed/part_009.
Returns all `(index, length)` ranges where `searchText` occurs in the
plain-text projection; embeds count as one offset unit.  The case-sensitivity
option defaults to case-insensitive, lowering both the projection and the
phrase. -/
def findTextRangesInDelta (ops : List DeltaOp) (searchText : String)
    (caseInsensitive : Bool := true) : List FoundRange :=
  if searchText.data = [] then []
  else
    let pm := buildProjection ops 0
    let sText := if caseInsensitive then searchText.data.map Char.toLower
      else searchText.data
    let pText := if caseInsensitive then pm.1.map Char.toLower else pm.1
    collectRanges pText sText pm.2 (pText.length + 1) 0

/-! ### String scanning machinery for the regex-based codecs -/

/-- JavaScript word character (regex `\w`): ASCII letters, digits, underscore.
Used for the word-boundary assertions `\b`. -/
def isWordChar (c : Char) : Bool := c.isAlphanum || c = '_'

/-- `String.prototype.trim`: strip whitespace from both ends. -/
def jsTrim (s : List Char) : List Char :=
  ((s.dropWhile Char.isWhitespace).reverse.dropWhile Char.isWhitespace).reverse

def spanLit : List Char := "<span".data

def closeLit : List Char := "</span>".data

def classAttrLit : List Char := "class=\"".data

def dataKeyAttrLit : List Char := "data-key=\"".data

def styleAttrLit : List Char := "style=\"".data

def dataHighlightLit : List Char := "data-highlight".data

def qlPlaceholderLit : List Char := "ql-placeholder".data

def qlHighlightLit : List Char := "ql-highlight".data

/-- True when `pat` provably fails to be a prefix of `s ++ anything`: some
position within `s` already differs from `pat`. -/
def mismatchWithin (pat s : List Char) : Bool :=
  match pat, s with
  | [], _ => false
  | _, [] => false
  | a :: pat', b :: s' => a != b || mismatchWithin pat' s'

/-- Substring test used for the `[^"]*TOKEN[^"]*` part of the class lookahead. -/
def containsSub (pat : List Char) : List Char → Bool
  | [] => pat.isEmpty
  | c :: cs => pat.isPrefixOf (c :: cs) || containsSub pat cs

/-- Value of a quoted attribute: the characters before the next double quote.
Fails when no closing quote exists, as `([^"]*)"` then cannot match. -/
def extractQuoted (s : List Char) : Option (List Char) :=
  match s.dropWhile (fun c => c != '"') with
  | [] => none
  | _ :: _ => some (s.takeWhile (fun c => c != '"'))

/-- Simulates the capturing lookahead `(?=[^>]*\bPAT([^"]*)")` where `pat` is
an attribute pattern ending in the opening quote (`data-key="`, `style="`).
Candidate positions lie left of the first `>` and need a word boundary before
the pattern; backtracking of the greedy `[^>]*` makes the engine keep the last
candidate whose capture (terminated by a closing quote) exists.  `prevW` says
whether the character before the current position is a word character. -/
def scanAttrVal (pat : List Char) (prevW : Bool) : List Char → Option (List Char)
  | [] => none
  | c :: cs =>
    if c = '>' then none
    else
      match scanAttrVal pat (isWordChar c) cs with
      | some v => some v
      | none =>
        if !prevW && pat.isPrefixOf (c :: cs) then
          extractQuoted ((c :: cs).drop pat.length)
        else none

/-- Simulates the lookahead `(?=[^>]*\bclass="[^"]*TOKEN[^"]*")`: some
position left of the first `>` starts a word-bounded `class="` whose value,
terminated by a closing quote, contains `token`. -/
def scanClassHas (token : List Char) (prevW : Bool) : List Char → Bool
  | [] => false
  | c :: cs =>
    if c = '>' then false
    else
      (!prevW && classAttrLit.isPrefixOf (c :: cs) &&
        (match extractQuoted ((c :: cs).drop classAttrLit.length) with
         | some v => containsSub token v
         | none => false)) || scanClassHas token (isWordChar c) cs

/-- Simulates the lookahead `(?=[^>]*\bTOKEN\b)`: a word-bounded occurrence of
`tok` left of the first `>`; the trailing boundary holds when the following
character is absent or not a word character. -/
def scanWordTok (tok : List Char) (prevW : Bool) : List Char → Bool
  | [] => false
  | c :: cs =>
    if c = '>' then false
    else
      (!prevW && tok.isPrefixOf (c :: cs) &&
        !(match (c :: cs).drop tok.length with
          | [] => false
          | d :: _ => isWordChar d)) || scanWordTok tok (isWordChar c) cs

/-- Splits the input at the first occurrence of `pat`, returning the parts
before and after it. -/
def splitSub (pat : List Char) : List Char → Option (List Char × List Char)
  | [] => none
  | c :: cs =>
    if pat.isPrefixOf (c :: cs) then some ([], (c :: cs).drop pat.length)
    else
      match splitSub pat cs with
      | some pp => some (c :: pp.1, pp.2)
      | none => none

/-- Common skeleton of the span-matching regexes: the literal `<span`, the
region `p` probed by the lookaheads, then `[^>]*>` (everything up to and
including the first `>`) and the lazy `[\s\S]*?</span>` (everything up to and
including the first `</span>`).  Returns `(p, inner, rest)`: the text after
`<span`, the captured inner content and the input after the whole match. -/
def spanSplit (s : List Char) : Option (List Char × List Char × List Char) :=
  if spanLit.isPrefixOf s then
    match (s.drop 5).dropWhile (fun c => c != '>') with
    | [] => none
    | _ :: u =>
      match splitSub closeLit u with
      | some ir => some (s.drop 5, ir.1, ir.2)
      | none => none
  else none

/-- One pass of a global regex replacement: scan left to right; at each
position the matcher either consumes a match, emitting its replacement and
continuing after the match (the JS engine advances `lastIndex` past it), or
the character is copied.  `fuel` bounds the recursion; every step consumes at
least one input character, so `s.length` steps always suffice and the fuelled
scan agrees with the JS replacement. -/
def replaceGo (m : List Char → Option (List Char × List Char)) :
    Nat → List Char → List Char
  | 0, s => s
  | _ + 1, [] => []
  | fuel + 1, c :: cs =>
    match m (c :: cs) with
    | some er =>
      if er.2.length < cs.length + 1 then er.1 ++ replaceGo m fuel er.2
      else c :: replaceGo m fuel cs
    | none => c :: replaceGo m fuel cs

/-- Global replacement with matcher `m`, with enough fuel for the whole input. -/
def replaceAllMatches (m : List Char → Option (List Char × List Char))
    (s : List Char) : List Char :=
  replaceGo m s.length s

/-! ### Placeholder token codec (src/src/lib/editor/QuillHighlightBlot.ts) -/

/-- Replacement emitted for one `PLACEHOLDER_TOKEN_REGEX` match: the canonical
placeholder span whose key, label and text all equal the trimmed content
(lines 320-323 of the source). -/
def placeholderSpanFor (k : List Char) : List Char :=
  "<span class=\"ql-placeholder\" data-key=\"".data ++ k ++
    "\" data-label=\"".data ++ k ++
    "\" contenteditable=\"false\">".data ++ k ++ closeLit

/-- Matcher for `PLACEHOLDER_TOKEN_REGEX`: two opening braces, one-or-more
characters other than a closing brace (greedy), two closing braces. -/
def tokenMatch (s : List Char) : Option (List Char × List Char) :=
  match s with
  | '{' :: '{' :: rest =>
    let content := rest.takeWhile (fun c => c != '}')
    if content = [] then none
    else
      match rest.dropWhile (fun c => c != '}') with
      | '}' :: '}' :: tail => some (placeholderSpanFor (jsTrim content), tail)
      | _ => none
  | _ => none

/-- Matcher for `PLACEHOLDER_BLOT_REGEX`: a span whose class value contains
`ql-placeholder` and which carries a `data-key` attribute; the whole span is
replaced by the token built from the key capture. -/
def placeholderBlotMatch (s : List Char) : Option (List Char × List Char) :=
  match spanSplit s with
  | none => none
  | some pir =>
    if scanClassHas qlPlaceholderLit true pir.1 then
      match scanAttrVal dataKeyAttrLit true pir.1 with
      | some key => some ('{' :: '{' :: (key ++ '}' :: '}' :: []), pir.2.2)
      | none => none
    else none

/-- `htmlWithPlaceholderTokensToHtml` (source lines 319-324): replaces every
`{{KEY}}` token with the canonical placeholder span. -/
def htmlWithPlaceholderTokensToHtml (html : String) : String :=
  ⟨replaceAllMatches tokenMatch html.data⟩

/-- `semanticHtmlToPlaceholderTokens` (source lines 330-332): replaces every
placeholder blot span with the `{{KEY}}` token from its `data-key` capture. -/
def semanticHtmlToPlaceholderTokens (html : String) : String :=
  ⟨replaceAllMatches placeholderBlotMatch html.data⟩

/-! ### Highlight token codec (src/src/utils/editor/highlightTokens.ts) -/

/-- Case-insensitive literal prefix test (for the `/i` regexes): `pat` is given
in lowercase and compared against lowered input characters. -/
def lcPrefAt (pat : List Char) (s : List Char) : Bool :=
  match pat, s with
  | [], _ => true
  | _ :: _, [] => false
  | a :: pat', b :: s' => a == b.toLower && lcPrefAt pat' s'

/-- The `\s*:\s*([^;]+)` part of the color regexes: skip whitespace, consume a
colon, and capture up to the next semicolon.  The occurrence fails when
nothing other than an immediate semicolon or end follows the colon; the
result is returned trimmed, as `parseColorFromStyle` trims the raw capture. -/
def tryColonCapture (t : List Char) : Option (List Char) :=
  match t.dropWhile Char.isWhitespace with
  | ':' :: t2 =>
    match t2.takeWhile (fun c => c != ';') with
    | [] => none
    | u => some (jsTrim u)
  | _ => none

/-- First word-bounded, case-insensitive occurrence of `color` followed by a
colon capture; models `style.match(/\bcolor\s*:\s*([^;]+)/i)` in
`parseColorFromStyle` (source lines 25-27). -/
def scanColorCap (prevW : Bool) : List Char → Option (List Char)
  | [] => none
  | c :: cs =>
    match (if !prevW && lcPrefAt "color".data (c :: cs) then
        tryColonCapture ((c :: cs).drop 5)
      else none) with
    | some v => some v
    | none => scanColorCap (isWordChar c) cs

/-- First word-bounded, case-insensitive occurrence of `background` with an
optional `-color` suffix followed by a colon capture; models
`style.match(/\bbackground(?:-color)?\s*:\s*([^;]+)/i)` (source line 26).
The greedy optional group tries the `-color` variant first and falls back. -/
def scanBgCap (prevW : Bool) : List Char → Option (List Char)
  | [] => none
  | c :: cs =>
    match (if !prevW && lcPrefAt "background".data (c :: cs) then
        let t := (c :: cs).drop 10
        match (if lcPrefAt "-color".data t then tryColonCapture (t.drop 6)
          else none) with
        | some v => some v
        | none => tryColonCapture t
      else none) with
    | some v => some v
    | none => scanBgCap (isWordChar c) cs

/-- `parseColorFromStyle` (source lines 19-30): extract the trimmed `color`
and `background(-color)` values, empty when absent. -/
def parseColorFromStyle (style : List Char) : List Char × List Char :=
  ((scanColorCap false style).getD [], (scanBgCap false style).getD [])

/-- `styleHasHighlightColors` (source lines 74-77): both a color and a
background color are declared (non-empty after trimming). -/
def styleHasHighlightColors (style : List Char) : Bool :=
  !(parseColorFromStyle style).1.isEmpty && !(parseColorFromStyle style).2.isEmpty

/-- Matcher for `HIGHLIGHT_BLOT_REGEX` (source lines 8-9): a span whose class
value contains `ql-highlight` and which carries a `style` attribute; replaced
by its inner content (source lines 90-93). -/
def highlightBlotMatch (s : List Char) : Option (List Char × List Char) :=
  match spanSplit s with
  | none => none
  | some pir =>
    if scanClassHas qlHighlightLit true pir.1 &&
        (scanAttrVal styleAttrLit true pir.1).isSome then
      some (pir.2.1, pir.2.2)
    else none

/-- Matcher for the inline `data-highlight` unwrap regex (source lines 95-98):
a span with a word-bounded `data-highlight` attribute; replaced by its inner
content. -/
def dataHighlightMatch (s : List Char) : Option (List Char × List Char) :=
  match spanSplit s with
  | none => none
  | some pir =>
    if scanWordTok dataHighlightLit true pir.1 then some (pir.2.1, pir.2.2)
    else none

/-- Matcher for `HIGHLIGHT_STYLE_ONLY_REGEX` (source lines 16-17, used at
lines 100-104): a span with a `style` attribute and no word-bounded
`data-highlight`; unwrapped to its inner content when the style declares both
highlight colors, otherwise the match is kept verbatim (the callback returns
the full match, and scanning continues after it). -/
def styleOnlyMatch (s : List Char) : Option (List Char × List Char) :=
  match spanSplit s with
  | none => none
  | some pir =>
    match scanAttrVal styleAttrLit true pir.1 with
    | none => none
    | some styleVal =>
      if scanWordTok dataHighlightLit true pir.1 then none
      else if styleHasHighlightColors styleVal then some (pir.2.1, pir.2.2)
      else
        some (spanLit ++ pir.1.takeWhile (fun c => c != '>') ++
          '>' :: (pir.2.1 ++ closeLit), pir.2.2)

/-- One iteration of the unwrap loop in `semanticHtmlToHighlightTokens`
(source lines 87-105): the three global replacements in order. -/
def highlightPassL (s : List Char) : List Char :=
  replaceAllMatches styleOnlyMatch
    (replaceAllMatches dataHighlightMatch
      (replaceAllMatches highlightBlotMatch s))

/-- The do-while loop of `semanticHtmlToHighlightTokens`: iterate the pass
until a fixpoint, with fuel.  Each productive pass strictly shortens the
string (proved below), so `s.length + 1` iterations always reach the
fixpoint, making the fuelled loop agree with the source loop. -/
def stripLoop : Nat → List Char → List Char
  | 0, s => s
  | fuel + 1, s =>
    let t := highlightPassL s
    if t = s then s else stripLoop fuel t

/-- `semanticHtmlToHighlightTokens` (source lines 84-107): repeatedly unwrap
highlight spans until no replacement applies. -/
def semanticHtmlToHighlightTokens (html : String) : String :=
  ⟨stripLoop (html.data.length + 1) html.data⟩

/-- String-level view of one loop iteration, for stating the termination
claim. -/
def highlightPass (html : String) : String := ⟨highlightPassL html.data⟩

/-! ### Range application protocol (src/src/utils/editor/ReactQuillWrapper.ts) -/

/-- Value attached by the highlight format, mirroring the object built in
`applyHighlights` (src/unnamed/part_010 lines 180-191). -/
structure HighlightValue where
  hoverTextTooltip : Option String := none
  hoverTooltipPlacement : Option String := none
  highlightId : Option String := none
  styles : List (String × String) := []
deriving DecidableEq, Repr

/-- One document offset unit: a character or an embed. -/
inductive CellContent where
  | ch (c : Char)
  | embed
deriving DecidableEq, Repr

/-- Per-offset view of the document content: what the offset holds plus its
highlight attribute.  `formatText` with the highlight format name rewrites
exactly the attribute of the offsets in range, so this is the faithful
content model for length-preserving formatting. -/
structure Cell where
  content : CellContent
  highlight : Option HighlightValue := none
deriving DecidableEq, Repr

/-- `formatText(index, length, "highlight", v)` at the per-offset level:
every offset `p` with `index ≤ p < index + length` gets its highlight
attribute set to `v` (`none` models the removal with value `false`). -/
def formatCells (i len : Nat) (v : Option HighlightValue) :
    List Cell → Nat → List Cell
  | [], _ => []
  | c :: cs, p =>
    (if i ≤ p ∧ p < i + len then { c with highlight := v } else c) ::
      formatCells i len v cs (p + 1)

/-- A located range together with the formatting mutation to apply there. -/
structure FmtRange where
  index : Nat
  length : Nat
  value : Option HighlightValue
deriving DecidableEq, Repr

/-- Applies one range's mutation to the document. -/
def applyFmt (doc : List Cell) (r : FmtRange) : List Cell :=
  formatCells r.index r.length r.value doc 0

/-- The sort of `applyHighlights` / `removeAllHighlights`: by start offset
descending (`rangesByIndex.sort((a, b) => b.index - a.index)`). -/
def sortRangesDesc (rs : List FmtRange) : List FmtRange :=
  rs.insertionSort (fun a b => b.index ≤ a.index)

/-- The same ranges sorted by start offset ascending, the comparison order
named by the spec's order-independence property. -/
def sortRangesAsc (rs : List FmtRange) : List FmtRange :=
  rs.insertionSort (fun a b => a.index ≤ b.index)

/-- The application step of `applyHighlights` (source lines 188-199) and
`removeAllHighlights` (lines 210-217): sort descending, then apply each
mutation in that order. -/
def applyRangesDesc (rs : List FmtRange) (doc : List Cell) : List Cell :=
  (sortRangesDesc rs).foldl applyFmt doc

/-- Comparison run: the same mutations applied in ascending start order. -/
def applyRangesAsc (rs : List FmtRange) (doc : List Cell) : List Cell :=
  (sortRangesAsc rs).foldl applyFmt doc

/-- Two ranges do not overlap. -/
def RangesDisjoint (r r' : FmtRange) : Prop :=
  r.index + r.length ≤ r'.index ∨ r'.index + r'.length ≤ r.index

instance (r r' : FmtRange) : Decidable (RangesDisjoint r r') := by
  unfold RangesDisjoint; infer_instance

/-! ### Placeholder insertion facade (ReactQuillWrapper.insertPlaceholder) -/

/-- Placeholder embed payload: key plus label (defaulted to the key). -/
structure PlaceholderValue where
  key : String
  label : String
deriving DecidableEq, Repr

/-- One document unit of the host editor. -/
inductive EditorItem where
  | ch (c : Char)
  | placeholderEmbed (v : PlaceholderValue)
  | otherEmbed
deriving DecidableEq, Repr

/-- Host editing surface state, modelled from the spec §6 contract: the
document (each item one offset unit) and the selection offset.
`setSelectionOffset` stores the offset; `insertEmbed` splices one embed unit
at the given offset. -/
structure EditorState where
  doc : List EditorItem
  selection : Option Nat
deriving DecidableEq, Repr

/-- Host `getDocumentLength`. -/
def EditorState.getLength (s : EditorState) : Nat := s.doc.length

/-- Host `setSelectionOffset`. -/
def EditorState.setSelection (s : EditorState) (i : Nat) : EditorState :=
  { s with selection := some i }

/-- Host `insertEmbed` for the placeholder blot. -/
def EditorState.insertEmbed (s : EditorState) (i : Nat) (v : PlaceholderValue) :
    EditorState :=
  { s with doc := s.doc.take i ++ EditorItem.placeholderEmbed v :: s.doc.drop i }

/-- Options of `insertPlaceholder`: required key, optional label. -/
structure InsertPlaceholderOptions where
  key : String
  label : Option String := none
deriving DecidableEq, Repr

/-- `insertPlaceholder` from ReactQuillWrapper.ts lines 132-145: resolve the
target offset as `index ?? this.getSelection()?.index ?? this.getLength()`,
build the value with the label defaulted to the key, set the selection to the
offset plus one (the whole blot counts as one unit) and insert the embed. -/
def insertPlaceholder (s : EditorState) (options : InsertPlaceholderOptions)
    (index : Option Nat := none) : EditorState :=
  let target := index.getD (s.selection.getD s.getLength)
  let value : PlaceholderValue := ⟨options.key, (options.label).getD options.key⟩
  let s1 := s.setSelection (target + 1)
  s1.insertEmbed target value

/-! ### Tooltip placement engine (src/src/lib/editor/QuillHighlightBlot.ts) -/

/-- Tooltip placement side. -/
inductive TooltipPlacement where
  | top
  | bottom
  | left
  | right
deriving DecidableEq, Repr

/-- `PLACEMENT_OPPOSITE` (source lines 99-107). -/
def oppositePlacement : TooltipPlacement → TooltipPlacement
  | .top => .bottom
  | .bottom => .top
  | .left => .right
  | .right => .left

/-- Screen rectangle: left, top and size, in CSS pixels (exact rationals). -/
structure DomRect where
  left : ℚ
  top : ℚ
  width : ℚ
  height : ℚ
deriving DecidableEq, Repr

/-- Right edge of a rectangle. -/
def DomRect.right (r : DomRect) : ℚ := r.left + r.width

/-- Bottom edge of a rectangle. -/
def DomRect.bottom (r : DomRect) : ℚ := r.top + r.height

/-- Rectangle the tooltip element occupies once the styles from
`getTooltipStyles` (source lines 51-97, `TOOLTIP_OFFSET = 8`) are applied,
for a tooltip of size `w × h`: the `left`/`top` anchor point shifted by the
`translate` transform percentages (of the tooltip's own size) and the fixed
gap. -/
def tooltipRectFor (placement : TooltipPlacement) (rect : DomRect) (w h : ℚ) :
    DomRect :=
  match placement with
  | .top => ⟨rect.left + rect.width / 2 - w / 2, rect.top - h - 8, w, h⟩
  | .bottom => ⟨rect.left + rect.width / 2 - w / 2, rect.bottom + 8, w, h⟩
  | .left => ⟨rect.left - w - 8, rect.top + rect.height / 2 - h / 2, w, h⟩
  | .right => ⟨rect.right + 8, rect.top + rect.height / 2 - h / 2, w, h⟩

/-- `isTooltipInViewport` (source lines 109-120): the element rectangle lies
within the viewport inset by `pad = 4` on every edge. -/
def isTooltipInViewport (r : DomRect) (vw vh : ℚ) : Prop :=
  4 ≤ r.left ∧ r.right ≤ vw - 4 ∧ 4 ≤ r.top ∧ r.bottom ≤ vh - 4

instance (r : DomRect) (vw vh : ℚ) : Decidable (isTooltipInViewport r vw vh) := by
  unfold isTooltipInViewport; infer_instance

/-- Final presentation of the tooltip overlay: its rectangle, the
`data-placement` attribute (`none` once removed) and whether the anchored
transform is still active (`false` after the clamp sets `transform: none`). -/
structure TooltipView where
  rect : DomRect
  placementAttr : Option TooltipPlacement
  anchored : Bool
deriving DecidableEq, Repr

/-- Placement logic of `showTooltip` (source lines 135-175) for an anchor
rectangle, requested placement, tooltip size `w × h` and viewport `vw × vh`:
place on the requested side; if not fully in the viewport, flip to the
opposite side; if still not in the viewport, clamp `left`/`top` into the
4-pixel viewport margins, drop the transform and remove the placement
attribute (no arrow). -/
def showTooltip (requested : TooltipPlacement) (anchor : DomRect)
    (w h vw vh : ℚ) : TooltipView :=
  let r1 := tooltipRectFor requested anchor w h
  if isTooltipInViewport r1 vw vh then ⟨r1, some requested, true⟩
  else
    let p2 := oppositePlacement requested
    let r2 := tooltipRectFor p2 anchor w h
    if isTooltipInViewport r2 vw vh then ⟨r2, some p2, true⟩
    else
      let cl := max 4 (min r2.left (vw - w - 4))
      let ct := max 4 (min r2.top (vh - h - 4))
      ⟨⟨cl, ct, w, h⟩, none, false⟩

/-- The word-character state after scanning a segment: `prevW` for the empty
segment, otherwise determined by the segment's last character. -/
def prevWAfter : List Char → Bool → Bool
  | [], w => w
  | c :: cs, _ => prevWAfter cs (isWordChar c)

/-- The attribute name part of the `data-key` pattern, without the quote. -/
def dkCore : List Char := "data-key=".data

/-- Segment of the canonical placeholder span before the `data-key`
attribute. -/
def phSeg1 : List Char := " class=\"ql-placeholder\" ".data

/-- Segment of the canonical placeholder span between the key value and the
label value. -/
def phSegB : List Char := "\" data-label=\"".data

/-- Segment of the canonical placeholder span between the label value and the
closing `>` of the open tag. -/
def phSegC : List Char := "\" contenteditable=\"false\"".data

/-- `phSegB` without its leading quote. -/
def phSegB1 : List Char := " data-label=\"".data

/-- `phSegC` without its leading quote. -/
def phSegC1 : List Char := " contenteditable=\"false\"".data

/-- Right-nested view of the part of the canonical placeholder span following
`<span`, used to walk the scanners over it. -/
def phProbe (k : List Char) : List Char :=
  phSeg1 ++ (dataKeyAttrLit ++ (k ++ (phSegB ++ (k ++
    (phSegC ++ ('>' :: (k ++ closeLit)))))))

/-! ## Theorems -/

/-- Claim C1, counterexample: on the document [run "ab", embed, run "cd"] the
search does NOT behave as claimed for the phrase "bc".  The plain-text
projection is "abcd" (the embed contributes no character), so "bc" occurs in
it at projection position 1 and the search returns the range with start
offset 1 and length 3 spanning the embed — not the empty list the claim
states.  This refutes the conjunction claimed for the two phrases. -/
theorem claim_c1_counterexample :
    ¬ (findTextRangesInDelta [⟨.text "ab"⟩, ⟨.embed⟩, ⟨.text "cd"⟩] "cd" =
        [⟨3, 2⟩] ∧
      findTextRangesInDelta [⟨.text "ab"⟩, ⟨.embed⟩, ⟨.text "cd"⟩] "bc" = []) := by
  decide

/-- Claim C1, amended: on the document [run "ab", embed, run "cd"] (offsets
a=0, b=1, embed=2, c=3, d=4) the search returns exactly one range with start
offset 3 and length 2 for the phrase "cd"; for the phrase "bc" it returns
exactly one range with start offset 1 and length 3 (the characters b and c
are adjacent in the plain-text projection, so the match spans the embed and
the length formula widens it to 3 offset units), not no match. -/
theorem claim_c1_amended :
    findTextRangesInDelta [⟨.text "ab"⟩, ⟨.embed⟩, ⟨.text "cd"⟩] "cd" =
      [⟨3, 2⟩] ∧
    findTextRangesInDelta [⟨.text "ab"⟩, ⟨.embed⟩, ⟨.text "cd"⟩] "bc" =
      [⟨1, 3⟩] := by
  decide

/-- Claim C6: searching "Hello" in the projection "hello HELLO Hello" with
the case-sensitivity option unspecified (default case-insensitive) or with
case-insensitive = true yields the three matches at offsets 0, 6 and 12,
each of length 5; with case-insensitive = false it yields exactly the one
match at offset 12. -/
theorem claim_c6_case_insensitive_search :
    findTextRangesInDelta [⟨.text "hello HELLO Hello"⟩] "Hello" =
      [⟨0, 5⟩, ⟨6, 5⟩, ⟨12, 5⟩] ∧
    findTextRangesInDelta [⟨.text "hello HELLO Hello"⟩] "Hello" true =
      [⟨0, 5⟩, ⟨6, 5⟩, ⟨12, 5⟩] ∧
    findTextRangesInDelta [⟨.text "hello HELLO Hello"⟩] "Hello" false =
      [⟨12, 5⟩] := by
  decide

/-- Claim C7: for the projection "aaa" and phrase "aa" the search reports the
overlapping occurrences at offsets 0 and 1, each of length 2, because the
scan advances the search start by exactly one after each hit. -/
theorem claim_c7_overlapping_matches :
    findTextRangesInDelta [⟨.text "aaa"⟩] "aa" = [⟨0, 2⟩, ⟨1, 2⟩] := by
  decide

/-- Claim C8: converting the canonical placeholder embed markup with key "K"
and distinct label "L" back to storage form yields exactly the token of the
key, discarding the label: the replacement emits only the data-key capture. -/
theorem claim_c8_label_discarded :
    semanticHtmlToPlaceholderTokens
      ("<span class=\"ql-placeholder\" data-key=\"K\" data-label=\"L\" " ++
        "contenteditable=\"false\">L</span>") = "\x7b\x7bK\x7d\x7d" := by
  decide

/-- Claim C9: `insertPlaceholder` inserts the placeholder embed at the given
index — or, when the index is omitted, at the current selection index, or at
the document end when there is no selection (the resolved target is
`index.getD (s.selection.getD s.getLength)`, exactly the source's
`index ?? this.getSelection()?.index ?? this.getLength()`) — and leaves the
cursor at target + 1, immediately after the inserted embed.  The host editor
primitives are modelled from the spec §6 contract (`setSelectionOffset`
stores the offset, `insertEmbed` splices one embed unit at the offset). -/
theorem claim_c9_insert_placeholder (s : EditorState)
    (options : InsertPlaceholderOptions) (index : Option Nat)
    (h : index.getD (s.selection.getD s.getLength) ≤ s.doc.length) :
    (insertPlaceholder s options index).selection =
      some (index.getD (s.selection.getD s.getLength) + 1) ∧
    (insertPlaceholder s options index).doc =
      s.doc.take (index.getD (s.selection.getD s.getLength)) ++
        EditorItem.placeholderEmbed ⟨options.key, options.label.getD options.key⟩ ::
        s.doc.drop (index.getD (s.selection.getD s.getLength)) ∧
    (insertPlaceholder s options index).doc.getD
        (index.getD (s.selection.getD s.getLength)) EditorItem.otherEmbed =
      EditorItem.placeholderEmbed ⟨options.key, options.label.getD options.key⟩ := by
  refine ⟨rfl, rfl, ?_⟩
  have hlen : (s.doc.take (index.getD (s.selection.getD s.getLength))).length =
      index.getD (s.selection.getD s.getLength) := by
    simp [List.length_take]
    omega
  show (s.doc.take (index.getD (s.selection.getD s.getLength)) ++
      EditorItem.placeholderEmbed _ :: s.doc.drop _).getD _ _ = _
  rw [List.getD_eq_getElem?_getD, List.getElem?_append_right (le_of_eq hlen)]
  rw [hlen]
  simp

/-- Claim C9 witness: inserting with no explicit index into a two-character
document whose selection sits at offset 1 places the embed at offset 1 and
the cursor at offset 2. -/
theorem claim_c9_insert_placeholder_witness :
    (insertPlaceholder ⟨[.ch 'a', .ch 'b'], some 1⟩ ⟨"K", none⟩ none).selection =
      some 2 ∧
    (insertPlaceholder ⟨[.ch 'a', .ch 'b'], some 1⟩ ⟨"K", none⟩ none).doc.getD 1
      EditorItem.otherEmbed = EditorItem.placeholderEmbed ⟨"K", "K"⟩ := by
  have h := claim_c9_insert_placeholder ⟨[.ch 'a', .ch 'b'], some 1⟩ ⟨"K", none⟩
    none (by decide)
  exact ⟨h.1, by simpa using h.2.2⟩

/-- Claim C10, counterexample: with a 100 × 100 viewport, a degenerate anchor
at the origin and a 200 × 10 tooltip, neither the requested top placement nor
the bottom flip fits, so the engine clamps — but the clamped rectangle's
right edge sits at 204, i.e. 104 pixels outside the viewport, refuting the
claim that the clamped overlay lies fully inside the viewport bounds with
zero pixels outside on any edge. -/
theorem claim_c10_counterexample :
    (showTooltip .top ⟨0, 0, 0, 0⟩ 200 10 100 100).placementAttr = none ∧
    (showTooltip .top ⟨0, 0, 0, 0⟩ 200 10 100 100).anchored = false ∧
    ¬ (showTooltip .top ⟨0, 0, 0, 0⟩ 200 10 100 100).rect.right ≤ 100 := by
  norm_num [showTooltip, tooltipRectFor, isTooltipInViewport, DomRect.right,
    DomRect.bottom, oppositePlacement]

/-- Claim C10, amended: when the overlay on the requested side is not fully
within the viewport (4-pixel inset margin), the engine retries with the
opposite side and anchors there if it fits; if the overlay is still out of
the viewport, it clamps left/top into the margins, removes the transform and
the directional-arrow attribute, and — provided the tooltip itself fits in
the viewport minus the margins (w + 8 ≤ vw and h + 8 ≤ vh; an oversized
tooltip cannot fit, see the counterexample) — the clamped rectangle lies
fully inside the viewport bounds with zero pixels outside on any edge. -/
theorem claim_c10_amended (requested : TooltipPlacement) (anchor : DomRect)
    (w h vw vh : ℚ) (hw : w + 8 ≤ vw) (hh : h + 8 ≤ vh)
    (h1 : ¬ isTooltipInViewport (tooltipRectFor requested anchor w h) vw vh) :
    (isTooltipInViewport (tooltipRectFor (oppositePlacement requested) anchor w h)
        vw vh →
      showTooltip requested anchor w h vw vh =
        ⟨tooltipRectFor (oppositePlacement requested) anchor w h,
          some (oppositePlacement requested), true⟩) ∧
    (¬ isTooltipInViewport (tooltipRectFor (oppositePlacement requested) anchor w h)
        vw vh →
      (showTooltip requested anchor w h vw vh).placementAttr = none ∧
      (showTooltip requested anchor w h vw vh).anchored = false ∧
      0 ≤ (showTooltip requested anchor w h vw vh).rect.left ∧
      (showTooltip requested anchor w h vw vh).rect.right ≤ vw ∧
      0 ≤ (showTooltip requested anchor w h vw vh).rect.top ∧
      (showTooltip requested anchor w h vw vh).rect.bottom ≤ vh) := by
  constructor
  · intro h2
    simp [showTooltip, h1, h2]
  · intro h2
    have hl : max (4 : ℚ)
        (min (tooltipRectFor (oppositePlacement requested) anchor w h).left
          (vw - w - 4)) ≤ vw - w - 4 :=
      max_le (by linarith) (min_le_right _ _)
    have ht : max (4 : ℚ)
        (min (tooltipRectFor (oppositePlacement requested) anchor w h).top
          (vh - h - 4)) ≤ vh - h - 4 :=
      max_le (by linarith) (min_le_right _ _)
    have hl4 := le_max_left (4 : ℚ)
      (min (tooltipRectFor (oppositePlacement requested) anchor w h).left
        (vw - w - 4))
    have ht4 := le_max_left (4 : ℚ)
      (min (tooltipRectFor (oppositePlacement requested) anchor w h).top
        (vh - h - 4))
    simp only [showTooltip, if_neg h1, if_neg h2]
    refine ⟨trivial, trivial, by linarith, ?_, by linarith, ?_⟩
    · show max (4 : ℚ) _ + w ≤ vw
      linarith
    · show max (4 : ℚ) _ + h ≤ vh
      linarith

/-- Claim C10 witness: with a 100 × 100 viewport, a degenerate anchor at the
origin and a 10 × 10 tooltip, both placements fail the viewport test and the
clamped overlay lies fully inside the viewport. -/
theorem claim_c10_amended_witness :
    (showTooltip .top ⟨0, 0, 0, 0⟩ 10 10 100 100).placementAttr = none ∧
    (showTooltip .top ⟨0, 0, 0, 0⟩ 10 10 100 100).anchored = false ∧
    0 ≤ (showTooltip .top ⟨0, 0, 0, 0⟩ 10 10 100 100).rect.left ∧
    (showTooltip .top ⟨0, 0, 0, 0⟩ 10 10 100 100).rect.right ≤ 100 ∧
    0 ≤ (showTooltip .top ⟨0, 0, 0, 0⟩ 10 10 100 100).rect.top ∧
    (showTooltip .top ⟨0, 0, 0, 0⟩ 10 10 100 100).rect.bottom ≤ 100 :=
  (claim_c10_amended .top ⟨0, 0, 0, 0⟩ 10 10 100 100 (by norm_num) (by norm_num)
    (by norm_num [isTooltipInViewport, tooltipRectFor, DomRect.right,
      DomRect.bottom])).2
    (by norm_num [isTooltipInViewport, tooltipRectFor, DomRect.right,
      DomRect.bottom, oppositePlacement])

/-- Disjointness of ranges is symmetric. -/
theorem rangesDisjoint_symm : Symmetric RangesDisjoint := by
  intro a b hab
  exact Or.symm hab

/-- Formatting mutations over disjoint offset ranges commute cell by cell:
each offset is rewritten by at most one of the two mutations. -/
theorem formatCells_comm (i1 l1 : Nat) (v1 : Option HighlightValue)
    (i2 l2 : Nat) (v2 : Option HighlightValue)
    (hd : i1 + l1 ≤ i2 ∨ i2 + l2 ≤ i1) :
    ∀ (doc : List Cell) (p : Nat),
      formatCells i1 l1 v1 (formatCells i2 l2 v2 doc p) p =
        formatCells i2 l2 v2 (formatCells i1 l1 v1 doc p) p := by
  intro doc
  induction doc with
  | nil => intro p; simp [formatCells]
  | cons c cs ih =>
    intro p
    by_cases h1 : i1 ≤ p ∧ p < i1 + l1 <;> by_cases h2 : i2 ≤ p ∧ p < i2 + l2
    · exfalso; omega
    all_goals simp [formatCells, h1, h2, ih]

/-- Mutation application commutes on disjoint ranges. -/
theorem applyFmt_comm (doc : List Cell) (r r' : FmtRange)
    (hd : RangesDisjoint r r') :
    applyFmt (applyFmt doc r) r' = applyFmt (applyFmt doc r') r := by
  unfold RangesDisjoint at hd
  exact formatCells_comm r'.index r'.length r'.value r.index r.length r.value
    (Or.symm hd) doc 0

/-- Folding pairwise-disjoint formatting mutations is invariant under
permutation of the mutation list. -/
theorem foldl_applyFmt_perm : ∀ {rs1 rs2 : List FmtRange}, rs1.Perm rs2 →
    rs1.Pairwise RangesDisjoint → ∀ doc : List Cell,
      rs1.foldl applyFmt doc = rs2.foldl applyFmt doc := by
  intro rs1 rs2 hp
  induction hp with
  | nil => intro _ _; rfl
  | cons x _ ih =>
    intro hpw doc
    simp only [List.foldl_cons]
    exact ih hpw.of_cons _
  | swap x y l =>
    intro hpw doc
    simp only [List.foldl_cons]
    have hxy : RangesDisjoint y x := (List.pairwise_cons.mp hpw).1 x (by simp)
    rw [applyFmt_comm doc y x hxy]
  | trans h1 _ ih1 ih2 =>
    intro hpw doc
    rw [ih1 hpw doc, ih2 ((h1.pairwise_iff fun hxy => rangesDisjoint_symm hxy).mp hpw) doc]

/-- Claim C3: for pairwise non-overlapping located ranges with
formatting-only (length-preserving) mutations, applying the mutations sorted
by start offset descending — as `applyHighlights` and `removeAllHighlights`
do — yields exactly the same final document content as applying them in
ascending start-offset order. -/
theorem claim_c3_order_independent (rs : List FmtRange) (doc : List Cell)
    (hd : rs.Pairwise RangesDisjoint) :
    applyRangesDesc rs doc = applyRangesAsc rs doc := by
  unfold applyRangesDesc applyRangesAsc sortRangesDesc sortRangesAsc
  have pd : (rs.insertionSort fun a b => b.index ≤ a.index).Perm rs :=
    List.perm_insertionSort _ rs
  have pa : rs.Perm (rs.insertionSort fun a b => a.index ≤ b.index) :=
    (List.perm_insertionSort _ rs).symm
  have hd1 : (rs.insertionSort fun a b => b.index ≤ a.index).Pairwise
      RangesDisjoint := (pd.pairwise_iff fun hxy => rangesDisjoint_symm hxy).mpr hd
  exact foldl_applyFmt_perm (pd.trans pa) hd1 doc

/-- Claim C3 witness: two concrete disjoint ranges applied to a five-cell
document give the same result in both orders. -/
theorem claim_c3_order_independent_witness :
    [FmtRange.mk 0 2 (some ⟨some "t", none, none, []⟩), FmtRange.mk 3 1 none].Pairwise
      RangesDisjoint ∧
    applyRangesDesc
        [FmtRange.mk 0 2 (some ⟨some "t", none, none, []⟩), FmtRange.mk 3 1 none]
        (List.replicate 5 ⟨.ch 'a', none⟩) =
      applyRangesAsc
        [FmtRange.mk 0 2 (some ⟨some "t", none, none, []⟩), FmtRange.mk 3 1 none]
        (List.replicate 5 ⟨.ch 'a', none⟩) :=
  ⟨by decide, claim_c3_order_independent _ _ (by decide)⟩

/-- The head of a non-empty `dropWhile` result fails the predicate. -/
theorem dropWhile_eq_cons_head {α : Type} (q : α → Bool) :
    ∀ (l : List α) (x : α) (u : List α), l.dropWhile q = x :: u → q x = false := by
  intro l
  induction l with
  | nil => intro x u h; simp [List.dropWhile] at h
  | cons a as ih =>
    intro x u h
    by_cases ha : q a
    · rw [List.dropWhile_cons, if_pos ha] at h
      exact ih x u h
    · rw [List.dropWhile_cons, if_neg ha] at h
      cases h
      exact Bool.eq_false_iff.mpr ha

/-- A successful `splitSub` decomposes its input around the pattern. -/
theorem splitSub_eq (pat : List Char) :
    ∀ (l pre post : List Char), splitSub pat l = some (pre, post) →
      l = pre ++ pat ++ post := by
  intro l
  induction l with
  | nil => intro pre post h; simp [splitSub] at h
  | cons c cs ih =>
    intro pre post h
    rw [splitSub] at h
    by_cases hp : pat.isPrefixOf (c :: cs)
    · rw [if_pos hp] at h
      obtain ⟨t, ht⟩ := List.isPrefixOf_iff_prefix.mp hp
      cases h
      have hdrop : (c :: cs).drop pat.length = t := by
        rw [← ht, List.drop_left]
      rw [hdrop, ← ht]
      simp
    · rw [if_neg hp] at h
      cases hsp : splitSub pat cs with
      | none => rw [hsp] at h; cases h
      | some pp =>
        rw [hsp] at h
        cases h
        have := ih pp.1 pp.2 hsp
        simp [this]

/-- A successful `spanSplit` decomposes its input: the `<span` literal, the
probe region `p` (which itself splits at the first `>` into the open-tag tail
and the inner content, the close literal and the rest). -/
theorem spanSplit_eq (s p inner rest : List Char)
    (h : spanSplit s = some (p, inner, rest)) :
    s = spanLit ++ p ∧
    p = p.takeWhile (fun c => c != '>') ++ '>' ::
      (inner ++ closeLit ++ rest) := by
  unfold spanSplit at h
  by_cases hp : spanLit.isPrefixOf s
  case neg => rw [if_neg hp] at h; cases h
  rw [if_pos hp] at h
  obtain ⟨t, ht⟩ := List.isPrefixOf_iff_prefix.mp hp
  have hdrop : s.drop 5 = t := by
    rw [← ht]
    exact List.drop_left spanLit t
  split at h
  next => cases h
  next x u hdw =>
    split at h
    next ir hss =>
      cases h
      rw [hdrop] at hdw
      have hx : (x != '>') = false := dropWhile_eq_cons_head _ t x u hdw
      have hx' : x = '>' := by simpa using hx
      have hu := splitSub_eq closeLit u ir.1 ir.2 hss
      constructor
      · rw [hdrop, ← ht]
      · rw [hdrop]
        conv_lhs => rw [← List.takeWhile_append_dropWhile (fun c => c != '>') t]
        rw [hdw, hx', hu]
    next => cases h

/-- Size accounting for a successful `spanSplit`: the match consumes the five
`<span` characters, at least the `>`, and the seven `</span>` characters
beyond the inner content and the rest. -/
theorem spanSplit_length (s p inner rest : List Char)
    (h : spanSplit s = some (p, inner, rest)) :
    inner.length + rest.length + 13 ≤ s.length := by
  obtain ⟨h1, h2⟩ := spanSplit_eq s p inner rest h
  have : s.length = spanLit.length + p.length := by rw [h1, List.length_append]
  have hp : p.length =
      (p.takeWhile (fun c => c != '>')).length + 1 +
        (inner.length + closeLit.length + rest.length) := by
    conv_lhs => rw [h2]
    simp [List.length_append]
    omega
  simp [spanLit, closeLit] at this hp ⊢
  omega

/-- `replaceGo` never lengthens the input, provided each match's replacement
together with the rest never exceeds the matched input. -/
theorem replaceGo_length_le (m : List Char → Option (List Char × List Char))
    (hm : ∀ s e rest, m s = some (e, rest) →
      e ++ rest = s ∨ e.length + rest.length < s.length) :
    ∀ (fuel : Nat) (s : List Char), (replaceGo m fuel s).length ≤ s.length := by
  intro fuel
  induction fuel with
  | zero => intro s; simp [replaceGo]
  | succ n ih =>
    intro s
    match s with
    | [] => simp [replaceGo]
    | c :: cs =>
      rw [replaceGo]
      split
      case h_1 er heq =>
        have hlen : er.1.length + er.2.length ≤ cs.length + 1 := by
          rcases hm (c :: cs) er.1 er.2 (by rw [heq]) with h | h
          · have := congrArg List.length h
            simp only [List.length_append, List.length_cons] at this
            omega
          · simp only [List.length_cons] at h
            omega
        by_cases hlt : er.2.length < cs.length + 1
        · rw [if_pos hlt]
          have h2 := ih er.2
          simp only [List.length_append, List.length_cons]
          omega
        · rw [if_neg hlt]
          simpa using ih cs
      case h_2 => simpa using ih cs

/-- A replacement pass either returns its input unchanged or strictly
shortens it, provided each match either reconstructs its input exactly or
shrinks it. -/
theorem replaceGo_eq_or_lt (m : List Char → Option (List Char × List Char))
    (hm : ∀ s e rest, m s = some (e, rest) →
      e ++ rest = s ∨ e.length + rest.length < s.length) :
    ∀ (fuel : Nat) (s : List Char),
      replaceGo m fuel s = s ∨ (replaceGo m fuel s).length < s.length := by
  intro fuel
  induction fuel with
  | zero => intro s; left; simp [replaceGo]
  | succ n ih =>
    intro s
    match s with
    | [] => left; simp [replaceGo]
    | c :: cs =>
      rw [replaceGo]
      split
      case h_1 er heq =>
        by_cases hlt : er.2.length < cs.length + 1
        · rw [if_pos hlt]
          rcases hm (c :: cs) er.1 er.2 (by rw [heq]) with h | h
          · rcases ih er.2 with h2 | h2
            · left
              rw [h2, h]
            · right
              have := replaceGo_length_le m hm n er.2
              have hlen := congrArg List.length h
              simp only [List.length_append, List.length_cons] at hlen ⊢
              omega
          · right
            have := replaceGo_length_le m hm n er.2
            simp only [List.length_append, List.length_cons] at h ⊢
            omega
        · rw [if_neg hlt]
          rcases ih cs with h2 | h2
          · left; rw [h2]
          · right; simp only [List.length_cons]; omega
      case h_2 =>
        rcases ih cs with h2 | h2
        · left; rw [h2]
        · right; simp only [List.length_cons]; omega

/-- The highlight-blot unwrap matcher shrinks its matches: the whole span is
replaced by the strictly shorter inner content. -/
theorem highlightBlotMatch_shrinks :
    ∀ (s e rest : List Char), highlightBlotMatch s = some (e, rest) →
      e ++ rest = s ∨ e.length + rest.length < s.length := by
  intro s e rest h
  unfold highlightBlotMatch at h
  split at h
  next => cases h
  next pir heq =>
    split at h
    · cases h
      right
      have := spanSplit_length s pir.1 pir.2.1 pir.2.2 (by rw [heq])
      omega
    · cases h

/-- The `data-highlight` unwrap matcher shrinks its matches. -/
theorem dataHighlightMatch_shrinks :
    ∀ (s e rest : List Char), dataHighlightMatch s = some (e, rest) →
      e ++ rest = s ∨ e.length + rest.length < s.length := by
  intro s e rest h
  unfold dataHighlightMatch at h
  split at h
  next => cases h
  next pir heq =>
    split at h
    · cases h
      right
      have := spanSplit_length s pir.1 pir.2.1 pir.2.2 (by rw [heq])
      omega
    · cases h

/-- The style-only matcher either unwraps a span (strictly shorter) or keeps
the match verbatim (reconstructing the input exactly). -/
theorem styleOnlyMatch_shrinks :
    ∀ (s e rest : List Char), styleOnlyMatch s = some (e, rest) →
      e ++ rest = s ∨ e.length + rest.length < s.length := by
  intro s e rest h
  unfold styleOnlyMatch at h
  split at h
  next => cases h
  next pir heq =>
    split at h
    next => cases h
    next styleVal hsv =>
      split at h
      next => cases h
      next hdh =>
        obtain ⟨hs1, hs2⟩ := spanSplit_eq s pir.1 pir.2.1 pir.2.2 (by rw [heq])
        split at h
        · cases h
          right
          have := spanSplit_length s pir.1 pir.2.1 pir.2.2 (by rw [heq])
          omega
        · cases h
          left
          conv_rhs => rw [hs1]
          conv_rhs => rw [hs2]
          simp

/-- One pass of the unwrap loop either returns its input or strictly shortens
it. -/
theorem highlightPassL_eq_or_lt (s : List Char) :
    highlightPassL s = s ∨ (highlightPassL s).length < s.length := by
  unfold highlightPassL replaceAllMatches
  set a := replaceGo highlightBlotMatch s.length s with ha
  set b := replaceGo dataHighlightMatch a.length a with hb
  set c := replaceGo styleOnlyMatch b.length b with hc
  have e1 := replaceGo_eq_or_lt highlightBlotMatch highlightBlotMatch_shrinks
    s.length s
  have e2 := replaceGo_eq_or_lt dataHighlightMatch dataHighlightMatch_shrinks
    a.length a
  have e3 := replaceGo_eq_or_lt styleOnlyMatch styleOnlyMatch_shrinks b.length b
  have l1 := replaceGo_length_le highlightBlotMatch highlightBlotMatch_shrinks
    s.length s
  have l2 := replaceGo_length_le dataHighlightMatch dataHighlightMatch_shrinks
    a.length a
  rw [← ha] at e1 l1
  rw [← hb] at e2 l2
  rw [← hc] at e3
  rcases e3 with h3 | h3
  · rcases e2 with h2 | h2
    · rcases e1 with h1 | h1
      · left; rw [h3, h2, h1]
      · right; rw [h3, h2]; exact h1
    · right; rw [h3]; omega
  · right; omega

/-- With fuel exceeding the input length, the unwrap loop reaches a fixpoint
of the pass. -/
theorem stripLoop_fix : ∀ (n : Nat) (s : List Char), s.length < n →
    highlightPassL (stripLoop n s) = stripLoop n s := by
  intro n
  induction n with
  | zero => intro s hs; omega
  | succ k ih =>
    intro s hs
    rw [stripLoop]
    by_cases he : highlightPassL s = s
    · rw [if_pos he]
      exact he
    · rw [if_neg he]
      rcases highlightPassL_eq_or_lt s with h | h
      · exact absurd h he
      · exact ih (highlightPassL s) (by omega)

/-- At a fixpoint of the pass the loop stops immediately. -/
theorem stripLoop_of_fix {s : List Char} (h : highlightPassL s = s) :
    ∀ n, stripLoop n s = s := by
  intro n
  cases n with
  | zero => rfl
  | succ k => rw [stripLoop, if_pos h]

/-- Claim C4: the highlight-stripping codec is idempotent: stripping an
already-stripped markup string changes nothing, because the result of the
unwrap loop is a fixpoint of the pass and the loop stops at a fixpoint. -/
theorem claim_c4_strip_idempotent (x : String) :
    semanticHtmlToHighlightTokens (semanticHtmlToHighlightTokens x) =
      semanticHtmlToHighlightTokens x := by
  unfold semanticHtmlToHighlightTokens
  have hfix : highlightPassL (stripLoop (x.data.length + 1) x.data) =
      stripLoop (x.data.length + 1) x.data :=
    stripLoop_fix (x.data.length + 1) x.data (by omega)
  show String.mk (stripLoop _ (stripLoop (x.data.length + 1) x.data)) = _
  rw [stripLoop_of_fix hfix]

/-- Claim C5: the unwrap loop of the highlight-stripping codec terminates:
every iteration that performs at least one replacement strictly reduces the
remaining markup (the pass output is strictly shorter whenever it differs
from its input), an iteration with zero replacements stops the loop
immediately, and the fuelled loop indeed reaches a fixpoint of the pass. -/
theorem claim_c5_strip_terminates (x : String) :
    (highlightPass x ≠ x → (highlightPass x).length < x.length) ∧
    (highlightPass x = x → semanticHtmlToHighlightTokens x = x) ∧
    highlightPass (semanticHtmlToHighlightTokens x) =
      semanticHtmlToHighlightTokens x := by
  refine ⟨?_, ?_, ?_⟩
  · intro hne
    rcases highlightPassL_eq_or_lt x.data with h | h
    · exfalso
      apply hne
      show String.mk (highlightPassL x.data) = x
      rw [h]
    · exact h
  · intro he
    have he' : highlightPassL x.data = x.data := congrArg String.data he
    show String.mk (stripLoop (x.data.length + 1) x.data) = x
    rw [stripLoop_of_fix he']
  · show String.mk (highlightPassL (stripLoop (x.data.length + 1) x.data)) =
      String.mk (stripLoop (x.data.length + 1) x.data)
    rw [stripLoop_fix (x.data.length + 1) x.data (by omega)]

/-- Claim C5 witness: on a concrete input with one data-highlight span the
pass performs a replacement and strictly shrinks the string. -/
theorem claim_c5_strip_terminates_witness :
    highlightPass "<span data-highlight>hi</span>" ≠
      "<span data-highlight>hi</span>" ∧
    (highlightPass "<span data-highlight>hi</span>").length <
      ("<span data-highlight>hi</span>" : String).length :=
  ⟨by decide, (claim_c5_strip_terminates "<span data-highlight>hi</span>").1
    (by decide)⟩

/-- `takeWhile` passes over a fully-satisfying segment. -/
theorem takeWhile_append_all {p : Char → Bool} :
    ∀ (xs ys : List Char), (∀ a ∈ xs, p a = true) →
      (xs ++ ys).takeWhile p = xs ++ ys.takeWhile p := by
  intro xs
  induction xs with
  | nil => intro ys _; rfl
  | cons x xs' ih =>
    intro ys h
    rw [List.cons_append, List.takeWhile_cons, if_pos (h x (by simp)),
      ih ys (fun a ha => h a (by simp [ha])), List.cons_append]

/-- `dropWhile` skips a fully-satisfying segment. -/
theorem dropWhile_append_all {p : Char → Bool} :
    ∀ (xs ys : List Char), (∀ a ∈ xs, p a = true) →
      (xs ++ ys).dropWhile p = ys.dropWhile p := by
  intro xs
  induction xs with
  | nil => intro ys _; rfl
  | cons x xs' ih =>
    intro ys h
    rw [List.cons_append, List.dropWhile_cons, if_pos (h x (by simp)),
      ih ys (fun a ha => h a (by simp [ha]))]

/-- A list is a Boolean prefix of itself followed by anything. -/
theorem isPrefixOf_append_self (xs ys : List Char) :
    xs.isPrefixOf (xs ++ ys) = true :=
  List.isPrefixOf_iff_prefix.mpr (List.prefix_append xs ys)

/-- A mismatch inside the scanned segment rules out the prefix regardless of
what follows the segment. -/
theorem not_prefix_of_mismatch :
    ∀ (pat s rest : List Char), mismatchWithin pat s = true →
      pat.isPrefixOf (s ++ rest) = false := by
  intro pat
  induction pat with
  | nil => intro s rest h; cases s <;> simp [mismatchWithin] at h
  | cons a pat' ih =>
    intro s rest h
    cases s with
    | nil => simp [mismatchWithin] at h
    | cons b s' =>
      simp only [mismatchWithin, Bool.or_eq_true, bne_iff_ne] at h
      rcases h with h | h
      · simp [List.cons_append, List.isPrefixOf, beq_eq_false_iff_ne, h]
      · simp [List.cons_append, List.isPrefixOf, ih s' rest h]

/-- `replaceGo` leaves the empty input empty. -/
theorem replaceGo_nil (m : List Char → Option (List Char × List Char)) :
    ∀ fuel, replaceGo m fuel [] = [] := by
  intro fuel
  cases fuel <;> rfl

/-- A replacement pass whose matcher consumes the whole input at the first
position emits exactly the replacement. -/
theorem replaceAllMatches_single (m : List Char → Option (List Char × List Char)) :
    ∀ (s e : List Char), s ≠ [] → m s = some (e, []) →
      replaceAllMatches m s = e := by
  intro s e hne hm0
  match s with
  | [] => exact absurd rfl hne
  | c :: cs =>
    show replaceGo m (cs.length + 1) (c :: cs) = e
    rw [replaceGo]
    split
    case h_1 er heq =>
      rw [hm0] at heq
      cases heq
      rw [if_pos (by simp), replaceGo_nil]
      simp
    case h_2 heq => rw [hm0] at heq; cases heq

/-- Scanning for an attribute pattern skips a segment that contains no `>`
and no position where the pattern could start. -/
theorem scanAttrVal_skip (pat : List Char) :
    ∀ (seg rest : List Char) (w : Bool),
      (∀ c ∈ seg, c ≠ '>') →
      (∀ j, j < seg.length → pat.isPrefixOf (seg.drop j ++ rest) = false) →
      scanAttrVal pat w (seg ++ rest) = scanAttrVal pat (prevWAfter seg w) rest := by
  intro seg
  induction seg with
  | nil => intro rest w _ _; rfl
  | cons c cs ih =>
    intro rest w hgt hno
    rw [List.cons_append, scanAttrVal, if_neg (hgt c (by simp))]
    rw [ih rest (isWordChar c) (fun a ha => hgt a (by simp [ha]))
      (fun j hj => by simpa using hno (j + 1) (by simpa using hj))]
    have h0 : pat.isPrefixOf (c :: (cs ++ rest)) = false := by
      simpa using hno 0 (by simp)
    rw [h0]
    show (match scanAttrVal pat (prevWAfter cs (isWordChar c)) rest with
      | some v => some v
      | none => if !w && false then
          extractQuoted ((c :: (cs ++ rest)).drop pat.length) else none) =
      scanAttrVal pat (prevWAfter (c :: cs) w) rest
    cases hR : scanAttrVal pat (prevWAfter cs (isWordChar c)) rest with
    | some v =>
      show some v = scanAttrVal pat (prevWAfter (c :: cs) w) rest
      rw [show prevWAfter (c :: cs) w = prevWAfter cs (isWordChar c) from rfl, hR]
    | none =>
      show (if !w && false then _ else none) = _
      rw [show prevWAfter (c :: cs) w = prevWAfter cs (isWordChar c) from rfl, hR]
      simp

/-- `splitSub` passes over a segment in which the pattern cannot start. -/
theorem splitSub_skip (pat : List Char) :
    ∀ (seg rest : List Char),
      (∀ j, j < seg.length → pat.isPrefixOf (seg.drop j ++ rest) = false) →
      splitSub pat (seg ++ rest) =
        (splitSub pat rest).map (fun pp => (seg ++ pp.1, pp.2)) := by
  intro seg
  induction seg with
  | nil =>
    intro rest _
    cases hs : splitSub pat rest <;> simp [hs]
  | cons c cs ih =>
    intro rest hno
    have h0 : pat.isPrefixOf (c :: (cs ++ rest)) = false := by
      simpa using hno 0 (by simp)
    rw [List.cons_append, splitSub, if_neg (by simp [h0])]
    rw [ih rest (fun j hj => by simpa using hno (j + 1) (by simpa using hj))]
    cases hs : splitSub pat rest <;> simp [hs]

/-- The `data-key="` pattern cannot start inside a quote-free key that does
not end in `data-key=`, when the key is followed by a quote: the pattern's
closing quote has nowhere to align. -/
theorem dataKey_no_occ (k rest' : List Char) (hq : ∀ c ∈ k, c ≠ '"')
    (hend : ¬ dkCore <:+ k) :
    ∀ j, j < k.length →
      dataKeyAttrLit.isPrefixOf (k.drop j ++ '"' :: rest') = false := by
  intro j hj
  cases hpre : dataKeyAttrLit.isPrefixOf (k.drop j ++ '"' :: rest') with
  | false => rfl
  | true =>
    exfalso
    have hp : dataKeyAttrLit <+: (k.drop j ++ '"' :: rest') :=
      List.isPrefixOf_iff_prefix.mp hpre
    have htake : dataKeyAttrLit = (k.drop j ++ '"' :: rest').take 10 := by
      have h10 : dataKeyAttrLit.length = 10 := rfl
      have := List.prefix_iff_eq_take.mp hp
      rw [h10] at this
      exact this
    have hdlen : (k.drop j).length = k.length - j := List.length_drop j k
    rw [List.take_append_eq_append_take] at htake
    by_cases h10 : 10 ≤ (k.drop j).length
    · rw [show 10 - (k.drop j).length = 0 from by omega] at htake
      simp only [List.take_zero, List.append_nil] at htake
      have hquote : '"' ∈ dataKeyAttrLit := by decide
      rw [htake] at hquote
      exact hq '"' (List.drop_subset _ _ (List.take_subset _ _ hquote)) rfl
    · push_neg at h10
      have htd : (k.drop j).take 10 = k.drop j :=
        List.take_of_length_le (by omega)
      rw [htd] at htake
      by_cases h9 : (k.drop j).length = 9
      · rw [show 10 - (k.drop j).length = 1 from by omega] at htake
        have h1 : ('"' :: rest').take 1 = ['"'] := by simp
        rw [h1] at htake
        have hdk : k.drop j = dkCore := by
          have h2 : dkCore = (k.drop j ++ ['"']).take 9 := by
            rw [← htake]
            decide
          rw [List.take_append_eq_append_take,
            List.take_of_length_le (show (k.drop j).length ≤ 9 from by omega),
            show 9 - (k.drop j).length = 0 from by omega] at h2
          simp only [List.take_zero, List.append_nil] at h2
          exact h2.symm
        exact hend (hdk ▸ List.drop_suffix j k)
      · have hL : (k.drop j).length ≤ 8 := by omega
        have hchar : dataKeyAttrLit[(k.drop j).length]? = some '"' := by
          rw [htake, List.getElem?_append_right (le_refl _)]
          rw [Nat.sub_self]
          rw [List.getElem?_take]
          rw [if_pos (by omega)]
          simp
        have hno9 : ∀ i, i < 9 → dataKeyAttrLit[i]? ≠ some '"' := by decide
        exact hno9 (k.drop j).length (by omega) hchar

/-- The `</span>` pattern cannot start inside a `>`-free key followed by the
real close tag: its `>` has nowhere to align. -/
theorem close_no_occ (k : List Char) (hgt : ∀ c ∈ k, c ≠ '>') :
    ∀ j, j < k.length →
      closeLit.isPrefixOf (k.drop j ++ closeLit) = false := by
  intro j hj
  cases hpre : closeLit.isPrefixOf (k.drop j ++ closeLit) with
  | false => rfl
  | true =>
    exfalso
    have hp : closeLit <+: (k.drop j ++ closeLit) :=
      List.isPrefixOf_iff_prefix.mp hpre
    have htake : closeLit = (k.drop j ++ closeLit).take 7 := by
      have h7 : closeLit.length = 7 := rfl
      have := List.prefix_iff_eq_take.mp hp
      rw [h7] at this
      exact this
    have hdlen : (k.drop j).length = k.length - j := List.length_drop j k
    rw [List.take_append_eq_append_take] at htake
    by_cases h7 : 7 ≤ (k.drop j).length
    · rw [show 7 - (k.drop j).length = 0 from by omega] at htake
      simp only [List.take_zero, List.append_nil] at htake
      have hgtmem : '>' ∈ closeLit := by decide
      rw [htake] at hgtmem
      exact hgt '>' (List.drop_subset _ _ (List.take_subset _ _ hgtmem)) rfl
    · push_neg at h7
      have htd : (k.drop j).take 7 = k.drop j :=
        List.take_of_length_le (by omega)
      rw [htd] at htake
      have hL : (k.drop j).length ≤ 6 := by omega
      have hL1 : 1 ≤ (k.drop j).length := by omega
      have hchar : closeLit[6]? = some '>' := by decide
      rw [htake, List.getElem?_append_right (by omega)] at hchar
      rw [List.getElem?_take, if_pos (by omega)] at hchar
      have hno6 : ∀ i, i < 6 → closeLit[i]? ≠ some '>' := by decide
      exact hno6 (6 - (k.drop j).length) (by omega) hchar

/-- The canonical placeholder span is the `<span` literal followed by the
probe region. -/
theorem placeholderSpanFor_eq (k : List Char) :
    placeholderSpanFor k = spanLit ++ phProbe k := by
  unfold placeholderSpanFor phProbe
  rw [show ("<span class=\"ql-placeholder\" data-key=\"" : String).data =
    spanLit ++ (phSeg1 ++ dataKeyAttrLit) from rfl]
  rw [show ("\" data-label=\"" : String).data = phSegB from rfl]
  rw [show ("\" contenteditable=\"false\">" : String).data =
    phSegC ++ ['>'] from rfl]
  simp [List.append_assoc]

/-- The probe region with the quote-initial segments split off. -/
theorem phProbe_canon (k : List Char) :
    phProbe k = phSeg1 ++ (dataKeyAttrLit ++ (k ++ ('"' :: (phSegB1 ++ (k ++
      ('"' :: (phSegC1 ++ ('>' :: (k ++ closeLit))))))))) := by
  unfold phProbe
  rw [show phSegB = '"' :: phSegB1 from rfl, show phSegC = '"' :: phSegC1 from rfl]
  simp

/-- Dropping up to the first `>` in the probe region reaches the end of the
open tag. -/
theorem phProbe_dropWhile (k : List Char) (hgt : ∀ c ∈ k, c ≠ '>') :
    (phProbe k).dropWhile (fun c => c != '>') = '>' :: (k ++ closeLit) := by
  unfold phProbe
  have hk : ∀ c ∈ k, (c != '>') = true := fun c hc => by simpa using hgt c hc
  rw [dropWhile_append_all phSeg1 _ (by decide),
    dropWhile_append_all dataKeyAttrLit _ (by decide),
    dropWhile_append_all k _ hk,
    dropWhile_append_all phSegB _ (by decide),
    dropWhile_append_all k _ hk,
    dropWhile_append_all phSegC _ (by decide),
    List.dropWhile_cons]
  simp

/-- Splitting the inner region at the close literal returns the key and an
empty rest. -/
theorem phProbe_splitSub (k : List Char) (hgt : ∀ c ∈ k, c ≠ '>') :
    splitSub closeLit (k ++ closeLit) = some (k, []) := by
  rw [splitSub_skip closeLit k closeLit (close_no_occ k hgt)]
  rw [show splitSub closeLit closeLit = some ([], []) from by decide]
  simp

/-- `spanSplit` on the canonical placeholder span returns the probe region,
the key as inner content, and an empty rest. -/
theorem spanSplit_placeholder (k : List Char) (hgt : ∀ c ∈ k, c ≠ '>') :
    spanSplit (placeholderSpanFor k) = some (phProbe k, k, []) := by
  rw [placeholderSpanFor_eq]
  unfold spanSplit
  have hpre : spanLit.isPrefixOf (spanLit ++ phProbe k) = true :=
    isPrefixOf_append_self _ _
  have hd5 : (spanLit ++ phProbe k).drop 5 = phProbe k :=
    List.drop_left spanLit _
  rw [if_pos hpre, hd5, phProbe_dropWhile k hgt]
  simp only [phProbe_splitSub k hgt]

/-- A position that starts `class="` with a quote-terminated value containing
the token makes the class lookahead succeed. -/
theorem scanClassHas_hit (token v t2 : List Char)
    (hv : ∀ c ∈ v, (c != '"') = true) (hcont : containsSub token v = true) :
    scanClassHas token false (classAttrLit ++ (v ++ ('"' :: t2))) = true := by
  have hb : classAttrLit ++ (v ++ ('"' :: t2)) =
      'c' :: ("lass=\"".data ++ (v ++ ('"' :: t2))) := by
    rw [show classAttrLit = 'c' :: "lass=\"".data from rfl]
    simp
  rw [hb, scanClassHas, if_neg (by decide : ¬ ('c' = '>'))]
  have hpre : classAttrLit.isPrefixOf
      ('c' :: ("lass=\"".data ++ (v ++ ('"' :: t2)))) = true := by
    rw [← hb]
    exact isPrefixOf_append_self _ _
  have hdrop : ('c' :: ("lass=\"".data ++ (v ++ ('"' :: t2)))).drop
      classAttrLit.length = v ++ ('"' :: t2) := by
    rw [← hb]
    exact List.drop_left _ _
  have hex : extractQuoted (v ++ ('"' :: t2)) = some v := by
    unfold extractQuoted
    rw [dropWhile_append_all v _ hv, List.dropWhile_cons,
      if_neg (by decide : ¬ ((('"' : Char) != '"') = true)),
      takeWhile_append_all v _ hv, List.takeWhile_cons,
      if_neg (by decide : ¬ ((('"' : Char) != '"') = true))]
    simp
  rw [hpre, hdrop, hex]
  simp [hcont]

/-- The class lookahead succeeds on the probe region of the canonical
placeholder span. -/
theorem phProbe_scanClass (k : List Char) :
    scanClassHas qlPlaceholderLit true (phProbe k) = true := by
  have hform : phProbe k = ' ' :: (classAttrLit ++ (qlPlaceholderLit ++
      ('"' :: (' ' :: (dataKeyAttrLit ++ (k ++ (phSegB ++ (k ++
        (phSegC ++ ('>' :: (k ++ closeLit))))))))))) := by
    unfold phProbe
    rw [show phSeg1 = ' ' :: (classAttrLit ++ (qlPlaceholderLit ++
      ('"' :: (' ' :: [])))) from rfl]
    simp
  rw [hform, scanClassHas, if_neg (by decide : ¬ (' ' = '>'))]
  rw [show isWordChar ' ' = false from by decide]
  rw [scanClassHas_hit qlPlaceholderLit qlPlaceholderLit _ (by decide)
    (by decide)]
  simp

/-- The `data-key` capture on the probe region of the canonical placeholder
span is exactly the key: the only viable candidate is the real `data-key`
attribute (the key being quote-free, not ending in `data-key=`, and
`>`-free). -/
theorem phProbe_scanAttr (k : List Char) (hq : ∀ c ∈ k, c ≠ '"')
    (hgt : ∀ c ∈ k, c ≠ '>') (hend : ¬ dkCore <:+ k) :
    scanAttrVal dataKeyAttrLit true (phProbe k) = some k := by
  have hmSeg1 : ∀ j, j < phSeg1.length →
      mismatchWithin dataKeyAttrLit (phSeg1.drop j) = true := by decide
  have hmDk1 : ∀ j, j < ("ata-key=\"".data).length →
      mismatchWithin dataKeyAttrLit (("ata-key=\"".data).drop j) = true := by
    decide
  have hmB1 : ∀ j, j < phSegB1.length →
      mismatchWithin dataKeyAttrLit (phSegB1.drop j) = true := by decide
  have hmC1 : ∀ j, j < phSegC1.length →
      mismatchWithin dataKeyAttrLit (phSegC1.drop j) = true := by decide
  have hA : ∀ w, scanAttrVal dataKeyAttrLit w ('>' :: (k ++ closeLit)) = none := by
    intro w
    rw [scanAttrVal, if_pos rfl]
  have hB : ∀ w, scanAttrVal dataKeyAttrLit w
      (phSegC1 ++ ('>' :: (k ++ closeLit))) = none := by
    intro w
    rw [scanAttrVal_skip dataKeyAttrLit phSegC1 _ w (by decide)
      (fun j hj => not_prefix_of_mismatch _ _ _ (hmC1 j hj))]
    exact hA _
  have hC : ∀ w, scanAttrVal dataKeyAttrLit w
      ('"' :: (phSegC1 ++ ('>' :: (k ++ closeLit)))) = none := by
    intro w
    rw [scanAttrVal, if_neg (by decide : ¬ ('"' = '>'))]
    rw [hB (isWordChar '"')]
    have hnp : dataKeyAttrLit.isPrefixOf
        ('"' :: (phSegC1 ++ ('>' :: (k ++ closeLit)))) = false :=
      not_prefix_of_mismatch dataKeyAttrLit ['"']
        (phSegC1 ++ ('>' :: (k ++ closeLit))) (by decide)
    rw [hnp]
    simp
  have hD : ∀ w, scanAttrVal dataKeyAttrLit w
      (k ++ ('"' :: (phSegC1 ++ ('>' :: (k ++ closeLit))))) = none := by
    intro w
    rw [scanAttrVal_skip dataKeyAttrLit k _ w hgt
      (dataKey_no_occ k _ hq hend)]
    exact hC _
  have hE : ∀ w, scanAttrVal dataKeyAttrLit w
      (phSegB1 ++ (k ++ ('"' :: (phSegC1 ++ ('>' :: (k ++ closeLit)))))) =
      none := by
    intro w
    rw [scanAttrVal_skip dataKeyAttrLit phSegB1 _ w (by decide)
      (fun j hj => not_prefix_of_mismatch _ _ _ (hmB1 j hj))]
    exact hD _
  have hF : ∀ w, scanAttrVal dataKeyAttrLit w
      ('"' :: (phSegB1 ++ (k ++ ('"' :: (phSegC1 ++
        ('>' :: (k ++ closeLit))))))) = none := by
    intro w
    rw [scanAttrVal, if_neg (by decide : ¬ ('"' = '>'))]
    rw [hE (isWordChar '"')]
    have hnp : dataKeyAttrLit.isPrefixOf ('"' :: (phSegB1 ++ (k ++ ('"' ::
        (phSegC1 ++ ('>' :: (k ++ closeLit))))))) = false :=
      not_prefix_of_mismatch dataKeyAttrLit ['"']
        (phSegB1 ++ (k ++ ('"' :: (phSegC1 ++ ('>' :: (k ++ closeLit))))))
        (by decide)
    rw [hnp]
    simp
  have hG : ∀ w, scanAttrVal dataKeyAttrLit w
      (k ++ ('"' :: (phSegB1 ++ (k ++ ('"' :: (phSegC1 ++
        ('>' :: (k ++ closeLit)))))))) = none := by
    intro w
    rw [scanAttrVal_skip dataKeyAttrLit k _ w hgt
      (dataKey_no_occ k _ hq hend)]
    exact hF _
  have hH : scanAttrVal dataKeyAttrLit (isWordChar 'd')
      ("ata-key=\"".data ++ (k ++ ('"' :: (phSegB1 ++ (k ++ ('"' ::
        (phSegC1 ++ ('>' :: (k ++ closeLit))))))))) = none := by
    rw [scanAttrVal_skip dataKeyAttrLit "ata-key=\"".data _ _ (by decide)
      (fun j hj => not_prefix_of_mismatch _ _ _ (hmDk1 j hj))]
    exact hG _
  rw [phProbe_canon]
  rw [scanAttrVal_skip dataKeyAttrLit phSeg1 _ true (by decide)
    (fun j hj => not_prefix_of_mismatch _ _ _ (hmSeg1 j hj))]
  rw [show prevWAfter phSeg1 true = false from rfl]
  have hb : dataKeyAttrLit ++ (k ++ ('"' :: (phSegB1 ++ (k ++ ('"' ::
      (phSegC1 ++ ('>' :: (k ++ closeLit)))))))) =
      'd' :: ("ata-key=\"".data ++ (k ++ ('"' :: (phSegB1 ++ (k ++ ('"' ::
        (phSegC1 ++ ('>' :: (k ++ closeLit))))))))) := by
    rw [show dataKeyAttrLit = 'd' :: "ata-key=\"".data from rfl]
    simp
  rw [hb, scanAttrVal, if_neg (by decide : ¬ ('d' = '>'))]
  rw [hH]
  have hpre : dataKeyAttrLit.isPrefixOf
      ('d' :: ("ata-key=\"".data ++ (k ++ ('"' :: (phSegB1 ++ (k ++ ('"' ::
        (phSegC1 ++ ('>' :: (k ++ closeLit)))))))))) = true := by
    rw [← hb]
    exact isPrefixOf_append_self _ _
  have hdrop : ('d' :: ("ata-key=\"".data ++ (k ++ ('"' :: (phSegB1 ++ (k ++
      ('"' :: (phSegC1 ++ ('>' :: (k ++ closeLit)))))))))).drop
      dataKeyAttrLit.length =
      k ++ ('"' :: (phSegB1 ++ (k ++ ('"' :: (phSegC1 ++
        ('>' :: (k ++ closeLit))))))) := by
    rw [← hb]
    exact List.drop_left _ _
  have hkq : ∀ c ∈ k, (c != '"') = true := fun c hc => by simpa using hq c hc
  have hex : extractQuoted (k ++ ('"' :: (phSegB1 ++ (k ++ ('"' :: (phSegC1 ++
      ('>' :: (k ++ closeLit)))))))) = some k := by
    unfold extractQuoted
    rw [dropWhile_append_all k _ hkq, List.dropWhile_cons,
      if_neg (by decide : ¬ ((('"' : Char) != '"') = true)),
      takeWhile_append_all k _ hkq, List.takeWhile_cons,
      if_neg (by decide : ¬ ((('"' : Char) != '"') = true))]
    simp
  rw [hpre, hdrop, hex]
  simp

/-- The placeholder blot matcher consumes the whole canonical span of a
well-behaved key and emits its token. -/
theorem placeholderBlotMatch_span (k : List Char) (hq : ∀ c ∈ k, c ≠ '"')
    (hgt : ∀ c ∈ k, c ≠ '>') (hend : ¬ dkCore <:+ k) :
    placeholderBlotMatch (placeholderSpanFor k) =
      some ('{' :: '{' :: (k ++ '}' :: '}' :: []), []) := by
  unfold placeholderBlotMatch
  simp [spanSplit_placeholder k hgt, phProbe_scanClass k,
    phProbe_scanAttr k hq hgt hend]

/-- The token matcher consumes a whole `{{K}}` token with a non-empty,
brace-free key and emits the canonical span of the trimmed key. -/
theorem tokenMatch_token (k : List Char) (hne : k ≠ [])
    (hbr : ∀ c ∈ k, c ≠ '}') :
    tokenMatch ('{' :: '{' :: (k ++ '}' :: '}' :: [])) =
      some (placeholderSpanFor (jsTrim k), []) := by
  have hstep : tokenMatch ('{' :: '{' :: (k ++ '}' :: '}' :: [])) =
      (if (k ++ '}' :: '}' :: []).takeWhile (fun c => c != '}') = [] then none
       else
        match (k ++ '}' :: '}' :: []).dropWhile (fun c => c != '}') with
        | '}' :: '}' :: tail =>
          some (placeholderSpanFor
            (jsTrim ((k ++ '}' :: '}' :: []).takeWhile (fun c => c != '}'))),
            tail)
        | _ => none) := rfl
  have hkb : ∀ c ∈ k, (c != '}') = true := fun c hc => by simpa using hbr c hc
  have htw : (k ++ '}' :: '}' :: []).takeWhile (fun c => c != '}') = k := by
    rw [takeWhile_append_all k _ hkb, List.takeWhile_cons,
      if_neg (by decide : ¬ ((('}' : Char) != '}') = true))]
    simp
  have hdw : (k ++ '}' :: '}' :: []).dropWhile (fun c => c != '}') =
      '}' :: '}' :: [] := by
    rw [dropWhile_append_all k _ hkb, List.dropWhile_cons,
      if_neg (by decide : ¬ ((('}' : Char) != '}') = true))]
  rw [hstep, htw, hdw, if_neg hne]
  rfl

/-- The data of a concatenation of strings is the concatenation of the data. -/
theorem string_data_append (s t : String) : (s ++ t).data = s.data ++ t.data :=
  rfl

/-- Claim C2, counterexample: the key " a" contains no closing brace, yet its
round trip yields the trimmed token "{{a}}", not "{{ a}}": the forward
direction trims the token content before storing it in the span. -/
theorem claim_c2_counterexample :
    (∀ c ∈ (" a" : String).data, c ≠ '}') ∧
    semanticHtmlToPlaceholderTokens (htmlWithPlaceholderTokensToHtml
      "\x7b\x7b a\x7d\x7d") ≠ "\x7b\x7b a\x7d\x7d" := by
  decide

/-- Claim C2, amended: for every non-empty key K that contains no closing
brace, no double quote and no `>`, is unchanged by trimming, and does not end
in `data-key=` (a key ending in it makes the quote after the key complete a
later spurious `data-key="` start inside the attribute value, which the
regex's greedy backtracking prefers), converting the token `{{K}}` to the
canonical placeholder embed markup and back yields exactly `{{K}}`. -/
theorem claim_c2_amended (K : String) (h1 : K.data ≠ [])
    (h2 : ∀ c ∈ K.data, c ≠ '}') (h3 : ∀ c ∈ K.data, c ≠ '"')
    (h4 : ∀ c ∈ K.data, c ≠ '>') (h5 : jsTrim K.data = K.data)
    (h6 : ¬ dkCore <:+ K.data) :
    semanticHtmlToPlaceholderTokens (htmlWithPlaceholderTokensToHtml
      ("\x7b\x7b" ++ K ++ "\x7d\x7d")) = "\x7b\x7b" ++ K ++ "\x7d\x7d" := by
  have hdata : ("\x7b\x7b" ++ K ++ "\x7d\x7d").data =
      '{' :: '{' :: (K.data ++ '}' :: '}' :: []) := by
    rw [string_data_append, string_data_append]
    rw [show ("\x7b\x7b" : String).data = ['{', '{'] from rfl,
      show ("\x7d\x7d" : String).data = ['}', '}'] from rfl]
    simp
  have htokne : ("\x7b\x7b" ++ K ++ "\x7d\x7d").data ≠ [] := by
    rw [hdata]
    simp
  have hspanne : placeholderSpanFor K.data ≠ [] := by
    rw [placeholderSpanFor_eq]
    exact List.append_ne_nil_of_left_ne_nil (by decide) _
  have hfwd : htmlWithPlaceholderTokensToHtml ("\x7b\x7b" ++ K ++ "\x7d\x7d") =
      String.mk (placeholderSpanFor K.data) := by
    unfold htmlWithPlaceholderTokensToHtml
    rw [hdata, replaceAllMatches_single tokenMatch _ _ (by simp)
      (tokenMatch_token K.data h1 h2), h5]
  have hbwd : semanticHtmlToPlaceholderTokens
      (String.mk (placeholderSpanFor K.data)) =
      "\x7b\x7b" ++ K ++ "\x7d\x7d" := by
    unfold semanticHtmlToPlaceholderTokens
    show String.mk (replaceAllMatches placeholderBlotMatch
      (placeholderSpanFor K.data)) = _
    rw [replaceAllMatches_single placeholderBlotMatch _ _ hspanne
      (placeholderBlotMatch_span K.data h3 h4 h6)]
    rw [← hdata]
  rw [hfwd, hbwd]

/-- Claim C2 witness: the well-behaved key NAME round-trips exactly. -/
theorem claim_c2_amended_witness :
    semanticHtmlToPlaceholderTokens (htmlWithPlaceholderTokensToHtml
      "\x7b\x7bNAME\x7d\x7d") = "\x7b\x7bNAME\x7d\x7d" :=
  claim_c2_amended "NAME" (by decide) (by decide) (by decide) (by decide)
    (by decide) (by decide)

end RQE
